import Mathlib

/-!
# Verification of the engagement classification engine

Shallow embedding of `src/databricks_pipeline/label_data_as_viral.py` (the
rolling-window viral labeler `compute_engagement`) and of the percentile
calibrator interface `get_top_engagement_from_both` used by
`src/data_pipeline/main.py`.

Modelling conventions:
* A pandas `DataFrame` is a `List` of row records (row order = dataframe order).
* Timestamps are modelled as `ℚ` (any linearly ordered dense time axis works);
  `pd.to_datetime(..., errors='coerce')` + `tz_localize(None)` is modelled by
  the raw `date` cell already being the parse result `Option ℚ`, where `none`
  is the `NaT` sentinel produced for unparsable values.
* Numeric cells are `ℚ`; a raw numeric cell is `Option ℚ` where `none` stands
  for a missing / non-numeric value (what `pd.to_numeric(errors='coerce')`
  turns into `NaN`).  A column missing entirely behaves as an all-`none`
  column (the source creates missing columns as zeros).
* The float literal `1.15` of the source is modelled as the rational `23/20`.
* `df.sort_values` on several keys is a stable lexicographic sort with
  `na_position='last'` (pandas' documented behaviour); it is embedded as
  `List.insertionSort` with a non-strict total preorder, which is a stable
  sort.
-/

/-- A raw input row, as handed to `compute_engagement` (its `df` argument).
`none` cells are unparsable / missing values. -/
structure RawPost where
  username : String
  date : Option ℚ
  likes : Option ℚ
  views : Option ℚ
  comments : Option ℚ
  duration : Option ℚ
deriving DecidableEq, Repr

/-- A row after step 1 (date cleaning, already reflected in `RawPost.date`)
and step 2 (numeric coercion with default `0`). -/
structure NPost where
  username : String
  date : Option ℚ
  likes : ℚ
  views : ℚ
  comments : ℚ
  duration : ℚ
deriving DecidableEq, Repr

/-- `_ensure_numeric`: coerce to numeric and fill NaNs with the default. -/
def ensure_numeric (v : Option ℚ) (d : ℚ := 0) : ℚ := v.getD d

/-- Steps 1–2 of `compute_engagement`, on one row. -/
def normalizeRow (p : RawPost) : NPost :=
  { username := p.username
    date := p.date
    likes := ensure_numeric p.likes
    views := ensure_numeric p.views
    comments := ensure_numeric p.comments
    duration := ensure_numeric p.duration }

/-- Steps 1–2 of `compute_engagement` on the whole table. -/
def normalizeTable (df : List RawPost) : List NPost := df.map normalizeRow

/-- Comparison of `date` cells used by
`df.sort_values(['username','date'], ascending=[True,False])`:
descending on parsed timestamps, with `NaT` placed last
(pandas' default `na_position='last'`). -/
def dateDescLe : Option ℚ → Option ℚ → Bool
  | some x, some y => decide (y ≤ x)
  | some _, none => true
  | none, some _ => false
  | none, none => true

/-- Row comparison of step 3: ascending `username`, then descending `date`
(`NaT` last).  Non-strict, so that `insertionSort` by it is the stable
lexicographic sort that `sort_values` performs. -/
def rowLe (a b : NPost) : Bool :=
  if a.username = b.username then dateDescLe a.date b.date
  else decide (a.username < b.username)

/-- `rowLe` as a relation, for `List.insertionSort`. -/
def rowR (a b : NPost) : Prop := rowLe a b = true

instance : DecidableRel rowR := fun a b => instDecidableEqBool _ _

/-- Step 3 of `compute_engagement`:
`df.sort_values(['username','date'], ascending=[True,False])`. -/
def sortStep (l : List NPost) : List NPost := l.insertionSort rowR

/-- A row together with its step-4 `post_number` column. -/
structure RPost where
  post : NPost
  post_number : ℕ
deriving DecidableEq, Repr

/-- Bump a per-username counter. -/
def bump (seen : String → ℕ) (u : String) : String → ℕ :=
  fun v => if v = u then seen v + 1 else seen v

/-- Worker for step 4: `df.groupby('username').cumcount() + 1` assigns to
every row one plus the number of earlier rows of the same username. -/
def rankGo (seen : String → ℕ) : List NPost → List RPost
  | [] => []
  | p :: l => ⟨p, seen p.username + 1⟩ :: rankGo (bump seen p.username) l

/-- Step 4 of `compute_engagement`: the `post_number` column. -/
def rankStep (l : List NPost) : List RPost := rankGo (fun _ => 0) l

/-- The Boolean row predicate "belongs to account `u`". -/
def userEqN (u : String) (p : NPost) : Bool := decide (p.username = u)

/-- Same predicate on ranked rows. -/
def userEqR (u : String) (p : RPost) : Bool := decide (p.post.username = u)

/-- Step 5 of `compute_engagement`:
`df.groupby('username').filter(lambda x: len(x) >= 1)` keeps the rows of
every account whose size is at least 1 (despite the comment in the source
saying `<30 posts`, the coded bound is 1). -/
def filterStep (l : List RPost) : List RPost :=
  l.filter fun p => decide (1 ≤ (l.filter (userEqR p.post.username)).length)

/-- Row comparison of step 6: ascending `username`, then ascending
`post_number` (again a stable sort). -/
def rankLe (a b : RPost) : Bool :=
  if a.post.username = b.post.username then decide (a.post_number ≤ b.post_number)
  else decide (a.post.username < b.post.username)

/-- `rankLe` as a relation. -/
def rankR (a b : RPost) : Prop := rankLe a b = true

instance : DecidableRel rankR := fun a b => instDecidableEqBool _ _

/-- Step 6 of `compute_engagement`:
`df.sort_values(['username','post_number'])` (the `reset_index(drop=True)`
is invisible in the list model). -/
def sortStep2 (l : List RPost) : List RPost := l.insertionSort rankR

/-- `Series.rolling(window=w, min_periods=w).mean()`: trailing-window mean,
undefined (NaN) while fewer than `w` observations are available.  (The
input series carries no NaN: likes were defaulted to 0 in step 2.) -/
def rollingMean (w : ℕ) (l : List ℚ) : List (Option ℚ) :=
  (List.range l.length).map fun j =>
    if w ≤ j + 1 then some (((l.take (j + 1)).drop (j + 1 - w)).sum / w) else none

/-- `Series.shift(-1)`: move every value one position up, the freed last
position becomes NaN; length is preserved. -/
def shiftUp (l : List (Option ℚ)) : List (Option ℚ) :=
  match l with
  | [] => []
  | _ :: t => t ++ [none]

/-- The inner `avg_next_50` of step 7:
`likes[::-1].rolling(window=50, min_periods=50).mean()[::-1].shift(-1)`. -/
def avg_next_50 (likes : List ℚ) : List (Option ℚ) :=
  shiftUp ((rollingMean 50 likes.reverse).reverse)

/-- The `likes` series of one account group, in current row order
(`df.groupby('username')['likes']`). -/
def groupLikes (l : List RPost) (u : String) : List ℚ :=
  (l.filter (userEqR u)).map fun q => q.post.likes

/-- Worker for step 7: `groupby('username', group_keys=False)['likes']
.apply(avg_next_50)` hands each row the value that `avg_next_50` computed at
that row's position inside its own account group. -/
def avgGo (full : List RPost) (seen : String → ℕ) : List RPost → List (RPost × Option ℚ)
  | [] => []
  | p :: l =>
    (p, (avg_next_50 (groupLikes full p.post.username)).getD (seen p.post.username) none) ::
      avgGo full (bump seen p.post.username) l

/-- Step 7 of `compute_engagement`: the `avg_last_50` column. -/
def avgStep (l : List RPost) : List (RPost × Option ℚ) := avgGo l (fun _ => 0) l

/-- A fully labeled output row of `compute_engagement`. -/
structure LPost where
  ranked : RPost
  avg_last_50 : Option ℚ
  viral : ℕ
deriving DecidableEq, Repr

/-- Output-row account, for readability of statements. -/
def LPost.username (p : LPost) : String := p.ranked.post.username

/-- Output-row likes. -/
def LPost.likes (p : LPost) : ℚ := p.ranked.post.likes

/-- Output-row date. -/
def LPost.date (p : LPost) : Option ℚ := p.ranked.post.date

/-- Output-row post number. -/
def LPost.num (p : LPost) : ℕ := p.ranked.post_number

/-- The multiplier `1.15` of step 8, as an exact rational. -/
def viralMultiplier : ℚ := 23 / 20

/-- One row of step 8: `likes > avg_last_50 * m`, cast to int.  A NaN
estimate compares as `False`, hence labels `0`. -/
def viralRow (m : ℚ) (x : RPost × Option ℚ) : LPost :=
  ⟨x.1, x.2,
    match x.2 with
    | none => 0
    | some a => if a * m < x.1.post.likes then 1 else 0⟩

/-- Step 8 of `compute_engagement` with an explicit multiplier `m`:
`(df['likes'] > df['avg_last_50'] * m).astype(int)`. -/
def viralStep (m : ℚ) (l : List (RPost × Option ℚ)) : List LPost :=
  l.map (viralRow m)

/-- Predicate "belongs to account `u`" on output rows. -/
def userEqL (u : String) (p : LPost) : Bool := decide (p.username = u)

/-- Worker for step 9: `df.groupby('username').head(n)` keeps each row whose
index inside its account group is below `n`. -/
def headGo (n : ℕ) (seen : String → ℕ) : List LPost → List LPost
  | [] => []
  | p :: l =>
    if seen p.username < n then p :: headGo n (bump seen p.username) l
    else headGo n (bump seen p.username) l

/-- Step 9 of `compute_engagement`. -/
def headStep (n : ℕ) (l : List LPost) : List LPost := headGo n (fun _ => 0) l

/-- Steps 1–8 of `compute_engagement` (the fully labeled table, before the
step-9 truncation), with the viral multiplier as a parameter. -/
def labelStages (m : ℚ) (df : List RawPost) : List LPost :=
  viralStep m (avgStep (sortStep2 (filterStep (rankStep (sortStep (normalizeTable df))))))

/-- `compute_engagement` with the viral multiplier exposed as the
configurable constant the spec names. -/
def compute_engagement_with (m : ℚ) (df : List RawPost) : List LPost :=
  headStep 50 (labelStages m df)

/-- The full `compute_engagement(df)` of
`src/databricks_pipeline/label_data_as_viral.py`. -/
def compute_engagement (df : List RawPost) : List LPost :=
  compute_engagement_with viralMultiplier df

/-- Build a plain input row (all numeric cells present, zero side metrics). -/
def mkPost (u : String) (d : ℚ) (lk : ℚ) : RawPost :=
  ⟨u, some d, some lk, some 0, some 0, some 0⟩

/-- The rows of one account, in table order. -/
def accountRows (u : String) (l : List LPost) : List LPost := l.filter (userEqL u)

/-- Number of input rows of one account. -/
def rawCount (u : String) (df : List RawPost) : ℕ :=
  (df.filter fun p => decide (p.username = u)).length

/-! ## Properties of the sort comparators -/

theorem dateDescLe_total (a b : Option ℚ) : dateDescLe a b = true ∨ dateDescLe b a = true := by
  cases a <;> cases b <;> simp [dateDescLe] <;> exact le_total _ _

theorem dateDescLe_trans {a b c : Option ℚ} (h₁ : dateDescLe a b = true)
    (h₂ : dateDescLe b c = true) : dateDescLe a c = true := by
  cases a <;> cases b <;> cases c <;> simp_all [dateDescLe] <;> exact le_trans h₂ h₁

theorem dateDescLe_refl (a : Option ℚ) : dateDescLe a a = true := by
  cases a <;> simp [dateDescLe]

theorem rowLe_total (a b : NPost) : rowLe a b = true ∨ rowLe b a = true := by
  by_cases h : a.username = b.username
  · simp [rowLe, h, dateDescLe_total]
  · rcases lt_or_gt_of_ne h with h' | h' <;> simp [rowLe, h, Ne.symm h, h', not_lt_of_gt h']

theorem rowLe_trans {a b c : NPost} (h₁ : rowLe a b = true) (h₂ : rowLe b c = true) :
    rowLe a c = true := by
  unfold rowLe at *
  by_cases hab : a.username = b.username <;> by_cases hbc : b.username = c.username
  · simp_all
    exact dateDescLe_trans h₁ h₂
  · simp_all
  · simp_all
  · simp only [if_neg hab, decide_eq_true_eq] at h₁
    simp only [if_neg hbc, decide_eq_true_eq] at h₂
    have : a.username < c.username := lt_trans h₁ h₂
    simp [ne_of_lt this, this]

instance : IsTotal NPost rowR := ⟨rowLe_total⟩

instance : IsTrans NPost rowR := ⟨fun _ _ _ => rowLe_trans⟩

theorem rankLe_total (a b : RPost) : rankLe a b = true ∨ rankLe b a = true := by
  by_cases h : a.post.username = b.post.username
  · simp [rankLe, h, Nat.le_total]
  · rcases lt_or_gt_of_ne h with h' | h' <;> simp [rankLe, h, Ne.symm h, h', not_lt_of_gt h']

theorem rankLe_trans {a b c : RPost} (h₁ : rankLe a b = true) (h₂ : rankLe b c = true) :
    rankLe a c = true := by
  unfold rankLe at *
  by_cases hab : a.post.username = b.post.username <;>
    by_cases hbc : b.post.username = c.post.username
  · simp_all
    omega
  · simp_all
  · simp_all
  · simp only [if_neg hab, decide_eq_true_eq] at h₁
    simp only [if_neg hbc, decide_eq_true_eq] at h₂
    have : a.post.username < c.post.username := lt_trans h₁ h₂
    simp [ne_of_lt this, this]

instance : IsTotal RPost rankR := ⟨rankLe_total⟩

instance : IsTrans RPost rankR := ⟨fun _ _ _ => rankLe_trans⟩

/-- Step 3 produces a table sorted by (username asc, date desc, NaT last). -/
theorem sortStep_sorted (l : List NPost) : (sortStep l).Sorted rowR :=
  List.sorted_insertionSort rowR l

/-- Step 3 permutes the table. -/
theorem sortStep_perm (l : List NPost) : List.Perm (sortStep l) l :=
  List.perm_insertionSort rowR l

/-! ## Closed form of the look-ahead rolling mean -/

/-- The 50-element window strictly after position `j` (positions `j+1 .. j+50`). -/
def window50 (g : List ℚ) (j : ℕ) : List ℚ := (g.drop (j + 1)).take 50

theorem rollingMean_length (w : ℕ) (l : List ℚ) : (rollingMean w l).length = l.length := by
  simp [rollingMean]

theorem shiftUp_length (l : List (Option ℚ)) : (shiftUp l).length = l.length := by
  cases l <;> simp [shiftUp]

theorem avg_next_50_length (g : List ℚ) : (avg_next_50 g).length = g.length := by
  simp [avg_next_50, shiftUp_length, rollingMean_length]

theorem rollingMean_getElem (w : ℕ) (l : List ℚ) (i : ℕ) (h : i < l.length) :
    (rollingMean w l)[i]? =
      some (if w ≤ i + 1 then some (((l.take (i + 1)).drop (i + 1 - w)).sum / w) else none) := by
  simp [rollingMean, List.getElem?_map, List.getElem?_range h]

theorem shiftUp_getElem (l : List (Option ℚ)) (j : ℕ) (h : j < l.length) :
    (shiftUp l)[j]? = some (if j + 1 < l.length then l.getD (j + 1) none else none) := by
  cases l with
  | nil => simp at h
  | cons a t =>
    show (t ++ [none])[j]? = _
    rcases Nat.lt_or_ge j t.length with hj | hj
    · rw [List.getElem?_append]
      simp only [if_pos hj]
      have hcond : j + 1 < (a :: t).length := by simp; omega
      rw [if_pos hcond]
      rw [List.getElem?_eq_getElem hj]
      simp [List.getD_eq_getElem?_getD, List.getElem?_eq_getElem hj]
    · have hj' : j = t.length := by simp at h; omega
      rw [List.getElem?_append_right hj]
      subst hj'
      simp

/-- Closed form of `avg_next_50`: at position `j` of the series it is the mean
of the 50 values at positions `j+1 .. j+50`, and it is undefined (NaN) when
fewer than 50 values follow position `j`. -/
theorem avg_next_50_getD (g : List ℚ) (j : ℕ) (hj : j < g.length) :
    (avg_next_50 g).getD j none =
      if j + 50 < g.length then some ((window50 g j).sum / 50) else none := by
  have hX : ((rollingMean 50 g.reverse).reverse).length = g.length := by
    simp [rollingMean_length]
  rw [List.getD_eq_getElem?_getD, avg_next_50, shiftUp_getElem _ j (by rw [hX]; exact hj)]
  rw [hX]
  by_cases h1 : j + 1 < g.length
  · rw [if_pos h1, List.getD_eq_getElem?_getD,
      List.getElem?_reverse (by rw [rollingMean_length, List.length_reverse]; exact h1)]
    rw [rollingMean_length, List.length_reverse]
    have hi : g.length - 1 - (j + 1) < g.reverse.length := by
      rw [List.length_reverse]; omega
    rw [rollingMean_getElem 50 g.reverse _ hi]
    have hi1 : g.length - 1 - (j + 1) + 1 = g.length - j - 1 := by omega
    by_cases h50 : j + 50 < g.length
    · have hc : 50 ≤ g.length - 1 - (j + 1) + 1 := by omega
      rw [if_pos hc, if_pos h50]
      simp only [Option.getD_some]
      congr 1
      have htake : g.reverse.take (g.length - 1 - (j + 1) + 1) = (g.drop (j + 1)).reverse := by
        rw [List.take_reverse]
        have harg : g.length - (g.length - 1 - (j + 1) + 1) = j + 1 := by omega
        rw [harg]
      rw [hi1] at htake ⊢
      rw [htake, List.drop_reverse]
      have hlen : (g.drop (j + 1)).length = g.length - (j + 1) := by simp
      have h50' : (g.drop (j + 1)).length - (g.length - j - 1 - 50) = 50 := by
        rw [hlen]; omega
      rw [h50', List.sum_reverse, window50]
      norm_num
    · have hc : ¬ 50 ≤ g.length - 1 - (j + 1) + 1 := by omega
      rw [if_neg hc, if_neg h50]
      simp
  · have h50 : ¬ j + 50 < g.length := by omega
    rw [if_neg h1, if_neg h50]
    simp

/-! ## Per-account characterization of the pipeline stages -/

/-- Pair each element with its position, starting at `k`. -/
def withIdx {α : Type} (k : ℕ) : List α → List (ℕ × α)
  | [] => []
  | p :: l => (k, p) :: withIdx (k + 1) l

theorem withIdx_map {α β : Type} (f : α → β) (k : ℕ) (l : List α) :
    withIdx k (l.map f) = (withIdx k l).map fun x => (x.1, f x.2) := by
  induction l generalizing k with
  | nil => rfl
  | cons p t ih => simp [withIdx, ih]

theorem withIdx_withIdx {α : Type} (k : ℕ) (l : List α) :
    withIdx k (withIdx k l) = (withIdx k l).map fun x => (x.1, x) := by
  induction l generalizing k with
  | nil => rfl
  | cons p t ih => simp [withIdx, ih]

theorem withIdx_length {α : Type} (k : ℕ) (l : List α) : (withIdx k l).length = l.length := by
  induction l generalizing k with
  | nil => rfl
  | cons p t ih => simp [withIdx, ih]

theorem bump_self (seen : String → ℕ) (u : String) : bump seen u u = seen u + 1 := by
  simp [bump]

theorem bump_other (seen : String → ℕ) {u v : String} (h : v ≠ u) : bump seen u v = seen v := by
  simp [bump, h]

theorem bump_le (seen : String → ℕ) (u v : String) : seen v ≤ bump seen u v := by
  by_cases h : v = u <;> simp [bump, h]

/-- The rows of account `u` after ranking are the account's rows in order,
numbered `seen u + 1, seen u + 2, ...`. -/
theorem rankGo_filter (seen : String → ℕ) (l : List NPost) (u : String) :
    (rankGo seen l).filter (userEqR u) =
      (withIdx (seen u) (l.filter (userEqN u))).map fun x => ⟨x.2, x.1 + 1⟩ := by
  induction l generalizing seen with
  | nil => rfl
  | cons p t ih =>
    by_cases h : p.username = u
    · subst h
      rw [rankGo, List.filter_cons]
      have h1 : userEqR p.username ⟨p, seen p.username + 1⟩ = true := by simp [userEqR]
      rw [if_pos h1, List.filter_cons, if_pos (by simp [userEqN])]
      rw [withIdx, List.map_cons, ih, bump_self]
    · rw [rankGo, List.filter_cons]
      have h1 : ¬ userEqR u ⟨p, seen p.username + 1⟩ = true := by simp [userEqR, h]
      rw [if_neg h1, List.filter_cons, if_neg (by simp [userEqN, h])]
      rw [ih, bump_other seen (fun hc => h hc.symm)]

theorem rankGo_mem {seen : String → ℕ} {l : List NPost} {x : RPost}
    (hx : x ∈ rankGo seen l) : x.post ∈ l ∧ seen x.post.username < x.post_number := by
  induction l generalizing seen with
  | nil => simp [rankGo] at hx
  | cons p t ih =>
    rw [rankGo, List.mem_cons] at hx
    rcases hx with rfl | hx
    · exact ⟨List.mem_cons_self _ _, by simp⟩
    · obtain ⟨h1, h2⟩ := ih hx
      exact ⟨List.mem_cons_of_mem _ h1, lt_of_le_of_lt (bump_le seen p.username _) h2⟩

theorem rankGo_sorted {l : List NPost} (hl : l.Sorted rowR) (seen : String → ℕ) :
    (rankGo seen l).Sorted rankR := by
  induction l generalizing seen with
  | nil => simp [rankGo]
  | cons p t ih =>
    rw [List.sorted_cons] at hl
    obtain ⟨hp, ht⟩ := hl
    rw [rankGo, List.sorted_cons]
    refine ⟨?_, ih ht _⟩
    intro x hx
    obtain ⟨hx1, hx2⟩ := rankGo_mem hx
    show rankLe _ x = true
    unfold rankLe
    by_cases hv : p.username = x.post.username
    · rw [if_pos hv]
      rw [hv] at hx2 ⊢
      rw [bump_self] at hx2
      simp only [decide_eq_true_eq]
      omega
    · rw [if_neg hv]
      have := hp x.post hx1
      unfold rowR rowLe at this
      rw [if_neg hv] at this
      exact this

theorem rankStep_sorted {l : List NPost} (hl : l.Sorted rowR) :
    (rankStep l).Sorted rankR := rankGo_sorted hl _

/-- The step-5 account-size filter keeps every row: every account that has a
row has at least one row. -/
theorem filterStep_eq (l : List RPost) : filterStep l = l := by
  rw [filterStep, List.filter_eq_self]
  intro p hp
  have hm : p ∈ l.filter (userEqR p.post.username) :=
    List.mem_filter.mpr ⟨hp, by simp [userEqR]⟩
  have : 0 < (l.filter (userEqR p.post.username)).length := List.length_pos_of_mem hm
  simpa using this

/-- Step 6 re-sorts a table that steps 3–4 left already sorted, so it is the
identity there. -/
theorem sortStep2_of_sorted {l : List RPost} (h : l.Sorted rankR) : sortStep2 l = l :=
  h.insertionSort_eq

theorem avgGo_filter (full : List RPost) (seen : String → ℕ) (l : List RPost) (u : String) :
    (avgGo full seen l).filter (fun x => userEqR u x.1) =
      (withIdx (seen u) (l.filter (userEqR u))).map
        (fun x => (x.2, (avg_next_50 (groupLikes full u)).getD x.1 none)) := by
  induction l generalizing seen with
  | nil => rfl
  | cons p t ih =>
    by_cases h : p.post.username = u
    · rw [avgGo, List.filter_cons]
      rw [if_pos (by simp [userEqR, h]), List.filter_cons, if_pos (by simp [userEqR, h])]
      rw [withIdx, List.map_cons, ih, h, bump_self]
    · rw [avgGo, List.filter_cons]
      rw [if_neg (by simp [userEqR, h]), List.filter_cons, if_neg (by simp [userEqR, h])]
      rw [ih, bump_other seen (fun hc => h hc.symm)]

theorem withIdx_snd {α : Type} (k : ℕ) (l : List α) : (withIdx k l).map Prod.snd = l := by
  induction l generalizing k with
  | nil => rfl
  | cons p t ih => simp [withIdx, ih]

/-- Reference per-account labeling: rows of one account in table order get
`post_number = position + 1`, the `avg_next_50` estimate at their position
over the account's own likes series, and the step-8 label. -/
def accountLabel (m : ℚ) (s : List NPost) : List LPost :=
  (withIdx 0 s).map fun x =>
    ⟨⟨x.2, x.1 + 1⟩, (avg_next_50 (s.map NPost.likes)).getD x.1 none,
      match (avg_next_50 (s.map NPost.likes)).getD x.1 none with
      | none => 0
      | some a => if a * m < x.2.likes then 1 else 0⟩

/-- The rows that steps 1–8 produce for one account are exactly the
reference labeling of that account's rows of the sorted normalized table:
labeling is per-account. -/
theorem accountRows_labelStages (m : ℚ) (df : List RawPost) (u : String) :
    accountRows u (labelStages m df) =
      accountLabel m ((sortStep (normalizeTable df)).filter (userEqN u)) := by
  have hs3 : (sortStep (normalizeTable df)).Sorted rowR := sortStep_sorted _
  have hs4 : (rankStep (sortStep (normalizeTable df))).Sorted rankR := rankStep_sorted hs3
  rw [labelStages, filterStep_eq, sortStep2_of_sorted hs4]
  set s3f := (sortStep (normalizeTable df)).filter (userEqN u) with hs3f
  have hrank : (rankStep (sortStep (normalizeTable df))).filter (userEqR u) =
      (withIdx 0 s3f).map fun x => ⟨x.2, x.1 + 1⟩ := rankGo_filter _ _ u
  have hlikes : groupLikes (rankStep (sortStep (normalizeTable df))) u = s3f.map NPost.likes := by
    rw [groupLikes, hrank, List.map_map]
    have h2 : ((fun q : RPost => q.post.likes) ∘ fun x : ℕ × NPost => (⟨x.2, x.1 + 1⟩ : RPost)) =
        (NPost.likes ∘ Prod.snd) := rfl
    rw [h2, ← List.map_map, withIdx_snd]
  rw [accountRows, viralStep, List.filter_map]
  have hcomp : (userEqL u ∘ viralRow m) = fun x : RPost × Option ℚ => userEqR u x.1 := rfl
  rw [hcomp, avgStep, avgGo_filter]
  simp only [hrank, hlikes, withIdx_map, withIdx_withIdx, List.map_map]
  rw [accountLabel]
  rfl

theorem headGo_filter (n : ℕ) (seen : String → ℕ) (l : List LPost) (u : String) :
    (headGo n seen l).filter (userEqL u) = (l.filter (userEqL u)).take (n - seen u) := by
  induction l generalizing seen with
  | nil => simp [headGo]
  | cons p t ih =>
    by_cases h : p.username = u
    · have hb : bump seen p.username u = seen u + 1 := by
        rw [← h, bump_self]
      by_cases hn : seen p.username < n
      · have hu : seen u < n := by rw [← h]; exact hn
        simp only [headGo, if_pos hn, List.filter_cons]
        rw [if_pos (by simp [userEqL, h]), if_pos (by simp [userEqL, h]), ih, hb]
        rw [show n - seen u = (n - (seen u + 1)) + 1 from by omega, List.take_succ_cons]
      · have hu : ¬ seen u < n := by rw [← h]; exact hn
        simp only [headGo, if_neg hn, List.filter_cons]
        rw [if_pos (by simp [userEqL, h]), ih, hb]
        rw [show n - (seen u + 1) = 0 from by omega, show n - seen u = 0 from by omega]
        simp
    · have hb : bump seen p.username u = seen u := bump_other seen fun hc => h hc.symm
      by_cases hn : seen p.username < n
      · simp only [headGo, if_pos hn, List.filter_cons]
        rw [if_neg (by simp [userEqL, h]), if_neg (by simp [userEqL, h]), ih, hb]
      · simp only [headGo, if_neg hn, List.filter_cons]
        rw [if_neg (by simp [userEqL, h]), ih, hb]

/-- Step 9 (`groupby('username').head(n)`) is `take n` on each account's row
subsequence. -/
theorem accountRows_headStep (n : ℕ) (l : List LPost) (u : String) :
    accountRows u (headStep n l) = (accountRows u l).take n := by
  rw [accountRows, headStep, headGo_filter]
  rfl

/-- Per-account view of the whole of `compute_engagement`. -/
theorem accountRows_compute_with (m : ℚ) (df : List RawPost) (u : String) :
    accountRows u (compute_engagement_with m df) =
      (accountLabel m ((sortStep (normalizeTable df)).filter (userEqN u))).take 50 := by
  rw [compute_engagement_with, accountRows_headStep, accountRows_labelStages]

/-- The account's row count survives normalization and sorting. -/
theorem filter_sortStep_length (df : List RawPost) (u : String) :
    ((sortStep (normalizeTable df)).filter (userEqN u)).length = rawCount u df := by
  rw [← List.countP_eq_length_filter, (sortStep_perm (normalizeTable df)).countP_eq,
    normalizeTable, List.countP_map, rawCount, ← List.countP_eq_length_filter]
  rfl

theorem withIdx_mem {α : Type} {k : ℕ} {l : List α} {y : ℕ × α} (hy : y ∈ withIdx k l) :
    k ≤ y.1 ∧ y.1 < k + l.length := by
  induction l generalizing k with
  | nil => simp [withIdx] at hy
  | cons p t ih =>
    rw [withIdx, List.mem_cons] at hy
    rcases hy with rfl | hy
    · simp
    · obtain ⟨h1, h2⟩ := ih hy
      simp only [List.length_cons]
      constructor <;> omega

/-- What each produced account row looks like: its position `j` in the
account (ascending `post_number`), its estimate, and its label. -/
theorem accountLabel_elems {m : ℚ} {s : List NPost} {x : LPost} (hx : x ∈ accountLabel m s) :
    ∃ j, j < s.length ∧ x.num = j + 1 ∧
      x.avg_last_50 = (avg_next_50 (s.map NPost.likes)).getD j none ∧
      (x.avg_last_50 = none → x.viral = 0) ∧
      (∀ a, x.avg_last_50 = some a → x.viral = if a * m < x.likes then 1 else 0) := by
  rw [accountLabel, List.mem_map] at hx
  obtain ⟨y, hy, rfl⟩ := hx
  obtain ⟨h1, h2⟩ := withIdx_mem hy
  refine ⟨y.1, by omega, rfl, rfl, ?_, ?_⟩
  · intro h
    show (match (avg_next_50 (s.map NPost.likes)).getD y.1 none with
      | none => 0
      | some a => if a * m < y.2.likes then 1 else 0) = 0
    have hx' : (avg_next_50 (s.map NPost.likes)).getD y.1 none = none := h
    rw [hx']
  · intro a h
    show (match (avg_next_50 (s.map NPost.likes)).getD y.1 none with
      | none => 0
      | some a => if a * m < y.2.likes then 1 else 0) = _
    have hx' : (avg_next_50 (s.map NPost.likes)).getD y.1 none = some a := h
    rw [hx']
    rfl

/-! ## Concrete scenarios from the specification -/

set_option maxRecDepth 40000

attribute [local semireducible] Rat.mul Rat.add Rat.sub Rat.inv

/-- Scenario A: account "alice", 51 posts, day `d` has `52 - d` likes
(day 51, the most recent, has 1 like). -/
def scenarioA : List RawPost :=
  (List.range 51).map fun d => mkPost "alice" (d + 1 : ℕ) (51 - d : ℕ)

/-- Scenario B: account "bob", 60 identical posts with 100 likes. -/
def scenarioB : List RawPost :=
  (List.range 60).map fun d => mkPost "bob" (d + 1 : ℕ) 100

/-- Scenario C: a single post with a million likes. -/
def scenarioC : List RawPost := [mkPost "solo" 1 1000000]

/-- An account of 51 posts whose most recent post has 1000 likes and whose
other 50 posts have none. -/
def scenarioSpike : List RawPost :=
  (List.range 51).map fun d => mkPost "carl" (d + 1 : ℕ) (if d = 50 then 1000 else 0)

/-- The likes series of account `u`, in the engine's processing order
(ascending `post_number`, i.e. most recent first). -/
def accountSeries (df : List RawPost) (u : String) : List ℚ :=
  ((sortStep (normalizeTable df)).filter (userEqN u)).map NPost.likes

theorem accountSeries_length (df : List RawPost) (u : String) :
    (accountSeries df u).length = rawCount u df := by
  rw [accountSeries, List.length_map, filter_sortStep_length]

/-- C3: an account with fewer than `W+1 = 51` posts in total gets an
undefined rolling estimate and the label `viral = 0` on every one of its
posts. -/
theorem c3_small_account_all_unlabeled (df : List RawPost) (u : String)
    (h : rawCount u df < 51) (x : LPost)
    (hx : x ∈ accountRows u (labelStages viralMultiplier df)) :
    x.avg_last_50 = none ∧ x.viral = 0 := by
  rw [accountRows_labelStages] at hx
  obtain ⟨j, hj, hnum, havg, hv0, _⟩ := accountLabel_elems hx
  have hlen : ((sortStep (normalizeTable df)).filter (userEqN u)).length = rawCount u df :=
    filter_sortStep_length df u
  rw [avg_next_50_getD _ _ (by simpa using hj)] at havg
  rw [if_neg (by simp only [List.length_map]; omega)] at havg
  exact ⟨havg, hv0 havg⟩

/-- C3 witness: scenario C (one post, a million likes) concretely gets no
estimate and label 0. -/
theorem c3_small_account_witness :
    rawCount "solo" scenarioC < 51 ∧
      (∃ x, x ∈ accountRows "solo" (labelStages viralMultiplier scenarioC) ∧
        x.avg_last_50 = none ∧ x.viral = 0) := by
  refine ⟨by decide, ⟨⟨⟨⟨"solo", some 1, 1000000, 0, 0, 0⟩, 1⟩, none, 0⟩, ?_, ?_⟩⟩
  · decide
  · exact c3_small_account_all_unlabeled scenarioC "solo" (by decide) _ (by decide)

/-- C4: with 60 identical posts of 100 likes, exactly the posts numbered
1..10 carry a defined estimate, each exactly 100, and since
`100 > 100 × 1.15` is false every post of the account is labeled
non-viral. -/
theorem c4_sixty_identical_posts :
    ((labelStages viralMultiplier scenarioB).map fun r => (r.num, r.avg_last_50, r.viral)) =
      (List.range 60).map fun j => (j + 1, if j < 10 then some (100 : ℚ) else none, 0) := by
  decide

/-- C1 counterexample: in scenario A the post with `post_number = 51` (the
oldest) has NO estimate, while the post with `post_number = 1` (the most
recent) has the only defined estimate, `53/2 = 26.5` — refuting the claim
that only post 51 has a defined estimate equal to `25.5` and that the
window consists of more recent posts. -/
theorem c1_scenario_counterexample :
    ((labelStages viralMultiplier scenarioA).filter fun r => decide (r.num = 51)).map
        LPost.avg_last_50 = [none] ∧
      ((labelStages viralMultiplier scenarioA).filter fun r => decide (r.num = 1)).map
        LPost.avg_last_50 = [some (53 / 2)] := by
  decide

/-- C1 (amended): with the account's posts in ascending `post_number` order,
the estimate of the post at position `i` is the arithmetic mean of `likes`
over the 50 posts at positions `i+1 .. i+50`; since `post_number 1` is the
most recent post, those window posts are the 50 posts immediately OLDER
than it, and the estimate is undefined exactly when fewer than 50 older
posts of the same account exist (`i + 49 ≥ k`). -/
theorem c1_window_amended (m : ℚ) (df : List RawPost) (u : String) (x : LPost)
    (hx : x ∈ accountRows u (labelStages m df)) :
    x.avg_last_50 =
      if x.num + 49 < rawCount u df then
        some ((window50 (accountSeries df u) (x.num - 1)).sum / 50)
      else none := by
  rw [accountRows_labelStages] at hx
  obtain ⟨j, hj, hnum, havg, _, _⟩ := accountLabel_elems hx
  rw [avg_next_50_getD _ _ (by simpa using hj)] at havg
  rw [show ((sortStep (normalizeTable df)).filter (userEqN u)).map NPost.likes =
    accountSeries df u from rfl] at havg
  rw [accountSeries_length] at havg
  rw [havg, hnum]
  rw [show j + 1 + 49 = j + 50 from by omega, show j + 1 - 1 = j from by omega]

/-- C1 witness: in scenario A, the most recent post (`post_number = 1`,
1 like) is in the output and its estimate is `mean(2..51) = 53/2`, as the
amended window rule dictates. -/
theorem c1_window_witness :
    (⟨⟨⟨"alice", some 51, 1, 0, 0, 0⟩, 1⟩, some (53 / 2), 0⟩ : LPost) ∈
        accountRows "alice" (labelStages viralMultiplier scenarioA) ∧
      (some (53 / 2) : Option ℚ) =
        (if 1 + 49 < rawCount "alice" scenarioA then
          some ((window50 (accountSeries scenarioA "alice") 0).sum / 50) else none) := by
  refine ⟨by decide, ?_⟩
  exact c1_window_amended viralMultiplier scenarioA "alice"
    ⟨⟨⟨"alice", some 51, 1, 0, 0, 0⟩, 1⟩, some (53 / 2), 0⟩ (by decide)

/-- C2 counterexample: an account of 51 posts whose most recent post has
1000 likes and the rest none: the most recent post (`post_number = 1`,
among the newest 50 positions) has the DEFINED estimate 0 and is labeled
`viral = 1` — refuting "the newest 50 posts of every account are never
labeled viral". -/
theorem c2_newest_can_be_viral_counterexample :
    ∃ x, x ∈ labelStages viralMultiplier scenarioSpike ∧
      x.num = 1 ∧ x.avg_last_50 = some 0 ∧ x.viral = 1 := by
  decide

/-- C2 (amended): every post among an account's 50 OLDEST positions — those
with fewer than 50 older same-account posts, i.e. `post_number > k - 50`
where `k` is the account's post count — has an undefined rolling estimate
and is labeled `viral = 0`; it is the oldest posts, not the newest, that
can never be labeled viral. -/
theorem c2_oldest_never_viral (m : ℚ) (df : List RawPost) (u : String) (x : LPost)
    (hx : x ∈ accountRows u (labelStages m df)) (h : rawCount u df < x.num + 50) :
    x.avg_last_50 = none ∧ x.viral = 0 := by
  rw [accountRows_labelStages] at hx
  obtain ⟨j, hj, hnum, havg, hv0, _⟩ := accountLabel_elems hx
  have hlen := filter_sortStep_length df u
  rw [avg_next_50_getD _ _ (by simpa using hj)] at havg
  rw [if_neg (by simp only [List.length_map]; omega)] at havg
  exact ⟨havg, hv0 havg⟩

/-- C2 witness: in scenario A the oldest post (`post_number = 51`) is among
the 50 oldest positions and concretely gets no estimate and label 0. -/
theorem c2_oldest_never_viral_witness :
    (⟨⟨⟨"alice", some 1, 51, 0, 0, 0⟩, 51⟩, none, 0⟩ : LPost) ∈
        accountRows "alice" (labelStages viralMultiplier scenarioA) ∧
      rawCount "alice" scenarioA < 51 + 50 ∧
      ((⟨⟨⟨"alice", some 1, 51, 0, 0, 0⟩, 51⟩, none, 0⟩ : LPost).avg_last_50 = none ∧
        (⟨⟨⟨"alice", some 1, 51, 0, 0, 0⟩, 51⟩, none, 0⟩ : LPost).viral = 0) := by
  refine ⟨by decide, by decide, ?_⟩
  exact c2_oldest_never_viral viralMultiplier scenarioA "alice" _ (by decide) (by decide)

/-! ## The ranking invariant (C6) -/

theorem withIdx_map_one {α : Type} (k : ℕ) (l : List α) :
    (withIdx k l).map (fun x => x.1 + 1) = List.range' (k + 1) l.length := by
  induction l generalizing k with
  | nil => rfl
  | cons p t ih => simp [withIdx, ih, List.range'_succ]

theorem withIdx_pairwise {α : Type} {R : α → α → Prop} {l : List α} (h : l.Pairwise R)
    (k : ℕ) : (withIdx k l).Pairwise fun x y => R x.2 y.2 := by
  have h2 : ((withIdx k l).map Prod.snd).Pairwise R := by rw [withIdx_snd]; exact h
  exact List.pairwise_map.mp h2

/-- Step 3, performed on rows tagged with their original position, so that
the stable tie-break can be talked about. -/
def rowRIdx (x y : ℕ × NPost) : Prop := rowR x.2 y.2

instance : DecidableRel rowRIdx := fun x y => instDecidableEqBool _ _

/-- The tagged sort. -/
def sortStepIdx (df : List RawPost) : List (ℕ × NPost) :=
  (withIdx 0 (normalizeTable df)).insertionSort rowRIdx

/-- Dropping the tags from the tagged sort gives the pipeline's step-3
sort. -/
theorem sortStepIdx_snd (df : List RawPost) :
    (sortStepIdx df).map Prod.snd = sortStep (normalizeTable df) := by
  rw [sortStepIdx, List.map_insertionSort rowRIdx rowR Prod.snd _ fun a _ b _ => Iff.rfl,
    withIdx_snd]
  rfl

/-- C6: after ranking (and before truncation), (i) the `post_number` values
of account `u` are exactly `1..k` in order, `k` = the account's row count;
(ii) along that order the dates are descending (`NaT` last), so
`post_number 1` is the most recent post and ranks increase as the date
decreases; (iii) rows with equal `username` and equal timestamp keep their
original relative input order (stable sort), stated on the tagged sort
whose untagged projection is the pipeline's sort. -/
theorem c6_rank_invariants (df : List RawPost) (u : String) :
    (((rankStep (sortStep (normalizeTable df))).filter (userEqR u)).map RPost.post_number =
        List.range' 1 (rawCount u df)) ∧
      (((rankStep (sortStep (normalizeTable df))).filter (userEqR u)).Pairwise
        fun a b => dateDescLe a.post.date b.post.date = true) ∧
      ((sortStepIdx df).map Prod.snd = sortStep (normalizeTable df)) ∧
      (∀ x y : ℕ × NPost, [x, y].Sublist (withIdx 0 (normalizeTable df)) →
        x.2.username = y.2.username → x.2.date = y.2.date →
        [x, y].Sublist (sortStepIdx df)) := by
  refine ⟨?_, ?_, sortStepIdx_snd df, ?_⟩
  · rw [rankStep, rankGo_filter, List.map_map]
    rw [show ((fun r : RPost => r.post_number) ∘ fun x : ℕ × NPost => (⟨x.2, x.1 + 1⟩ : RPost)) =
      fun x : ℕ × NPost => x.1 + 1 from rfl]
    rw [withIdx_map_one, ← filter_sortStep_length df u]
  · rw [rankStep, rankGo_filter]
    rw [List.pairwise_map]
    have hs3f : ((sortStep (normalizeTable df)).filter (userEqN u)).Pairwise rowR :=
      (sortStep_sorted (normalizeTable df)).filter _
    have hdates : ((sortStep (normalizeTable df)).filter (userEqN u)).Pairwise
        fun a b => dateDescLe a.date b.date = true := by
      refine hs3f.imp_of_mem fun ha hb hr => ?_
      have hua := (List.mem_filter.mp ha).2
      have hub := (List.mem_filter.mp hb).2
      rw [userEqN, decide_eq_true_eq] at hua hub
      rw [rowR, rowLe, if_pos (hua.trans hub.symm)] at hr
      exact hr
    exact withIdx_pairwise hdates 0
  · intro x y hsub hu hd
    refine List.pair_sublist_insertionSort ?_ hsub
    rw [rowRIdx, rowR, rowLe, if_pos hu, hd]
    exact dateDescLe_refl _

/-- C6 witness: two posts of one account with the same timestamp stay in
input order in the tagged sort, and the ranks of the account are `1, 2`. -/
theorem c6_rank_invariants_witness :
    (((rankStep (sortStep (normalizeTable
          [mkPost "dup" 5 10, mkPost "dup" 5 20]))).filter (userEqR "dup")).map
        RPost.post_number = List.range' 1 (rawCount "dup" [mkPost "dup" 5 10, mkPost "dup" 5 20])) ∧
      [(0, normalizeRow (mkPost "dup" 5 10)), (1, normalizeRow (mkPost "dup" 5 20))].Sublist
        (sortStepIdx [mkPost "dup" 5 10, mkPost "dup" 5 20]) := by
  refine ⟨(c6_rank_invariants [mkPost "dup" 5 10, mkPost "dup" 5 20] "dup").1, ?_⟩
  exact (c6_rank_invariants [mkPost "dup" 5 10, mkPost "dup" 5 20] "dup").2.2.2
    (0, normalizeRow (mkPost "dup" 5 10)) (1, normalizeRow (mkPost "dup" 5 20))
    (by decide) rfl rfl

/-! ## Unparsable dates (C10) -/

theorem withIdx_pairwise_fst {α : Type} (k : ℕ) (l : List α) :
    (withIdx k l).Pairwise fun x y => x.1 < y.1 := by
  induction l generalizing k with
  | nil => simp [withIdx]
  | cons p t ih =>
    rw [withIdx, List.pairwise_cons]
    exact ⟨fun y hy => (withIdx_mem hy).1, ih (k + 1)⟩

/-- A table with one unparsable date arriving first in input order. -/
def natTable : List RawPost :=
  [⟨"nat", none, some 7, some 0, some 0, some 0⟩, mkPost "nat" 3 5, mkPost "nat" 1 9]

/-- C10: rows whose raw date failed to parse (`NaT`) are kept: an account's
labeled row count equals its input row count; the account's rows appear in
strictly increasing `post_number` order, and once an unparsable date
occurs, every later row of the account also has one — so every `NaT` row
gets a larger `post_number` than every parseable-dated row (it is ranked
as the oldest content); and the likes series feeding every window average
is exactly the likes of all of the account's rows, `NaT` rows included. -/
theorem c10_unparsable_kept_ranked_last (m : ℚ) (df : List RawPost) (u : String) :
    ((accountRows u (labelStages m df)).length = rawCount u df) ∧
      ((accountRows u (labelStages m df)).Pairwise fun a b =>
        a.ranked.post_number < b.ranked.post_number) ∧
      ((accountRows u (labelStages m df)).Pairwise fun a b =>
        a.date = none → b.date = none) ∧
      ((accountRows u (labelStages m df)).map LPost.likes = accountSeries df u) := by
  rw [accountRows_labelStages]
  set s3f := (sortStep (normalizeTable df)).filter (userEqN u) with hs3f
  have hdates : s3f.Pairwise fun a b => dateDescLe a.date b.date = true := by
    have hs : s3f.Pairwise rowR := (sortStep_sorted (normalizeTable df)).filter _
    refine hs.imp_of_mem fun ha hb hr => ?_
    have hua := (List.mem_filter.mp ha).2
    have hub := (List.mem_filter.mp hb).2
    rw [userEqN, decide_eq_true_eq] at hua hub
    rw [rowR, rowLe, if_pos (hua.trans hub.symm)] at hr
    exact hr
  refine ⟨?_, ?_, ?_, ?_⟩
  · rw [accountLabel, List.length_map, withIdx_length, hs3f, filter_sortStep_length]
  · rw [accountLabel, List.pairwise_map]
    exact (withIdx_pairwise_fst 0 s3f).imp fun h => by
      show _ + 1 < _ + 1
      omega
  · rw [accountLabel, List.pairwise_map]
    refine (withIdx_pairwise hdates 0).imp ?_
    intro x y h hn
    have hx : x.2.date = none := hn
    rw [hx] at h
    show y.2.date = none
    cases hy : y.2.date with
    | none => rfl
    | some d => rw [hy] at h; exact absurd h (by simp [dateDescLe])
  · rw [accountLabel, List.map_map]
    rw [show (LPost.likes ∘ fun x : ℕ × NPost =>
      (⟨⟨x.2, x.1 + 1⟩, (avg_next_50 (s3f.map NPost.likes)).getD x.1 none,
        match (avg_next_50 (s3f.map NPost.likes)).getD x.1 none with
        | none => 0
        | some a => if a * m < x.2.likes then 1 else 0⟩ : LPost)) =
      (NPost.likes ∘ Prod.snd) from rfl]
    rw [← List.map_map, withIdx_snd]
    rfl

/-- C10 witness: with the `NaT` row arriving first in input order, the
account's rows come out ranked `1, 2, 3` with the `NaT` row last
(`post_number 3`), and its likes value 7 is the last entry of the series
every window average draws from. -/
theorem c10_unparsable_witness :
    ((accountRows "nat" (labelStages viralMultiplier natTable)).map
        (fun r => (r.num, r.date, r.likes)) =
      [(1, some 3, 5), (2, some 1, 9), (3, none, 7)]) ∧
      (accountRows "nat" (labelStages viralMultiplier natTable)).map LPost.likes =
        accountSeries natTable "nat" := by
  exact ⟨by decide, (c10_unparsable_kept_ranked_last viralMultiplier natTable "nat").2.2.2⟩

/-! ## Multiplier monotonicity (C7) -/

/-- Number of posts labeled viral by the full pipeline run with multiplier
`m`. -/
def viralCount (m : ℚ) (df : List RawPost) : ℕ :=
  ((compute_engagement_with m df).filter fun r => decide (r.viral = 1)).length

/-- Step 9's per-account head, acting on the step-7 pairs (used to compare
runs that differ only in the multiplier). -/
def headGoP (n : ℕ) (seen : String → ℕ) : List (RPost × Option ℚ) → List (RPost × Option ℚ)
  | [] => []
  | x :: l =>
    if seen x.1.post.username < n then x :: headGoP n (bump seen x.1.post.username) l
    else headGoP n (bump seen x.1.post.username) l

theorem headGo_map_viralRow (m : ℚ) (n : ℕ) (seen : String → ℕ)
    (l : List (RPost × Option ℚ)) :
    headGo n seen (l.map (viralRow m)) = (headGoP n seen l).map (viralRow m) := by
  induction l generalizing seen with
  | nil => rfl
  | cons x t ih =>
    rw [List.map_cons]
    rw [headGo, headGoP]
    rw [show (viralRow m x).username = x.1.post.username from rfl]
    by_cases h : seen x.1.post.username < n
    · rw [if_pos h, if_pos h, ih, List.map_cons]
    · rw [if_neg h, if_neg h, ih]

theorem headGoP_mem {n : ℕ} {seen : String → ℕ} {l : List (RPost × Option ℚ)}
    {x : RPost × Option ℚ} (hx : x ∈ headGoP n seen l) : x ∈ l := by
  induction l generalizing seen with
  | nil => simp [headGoP] at hx
  | cons y t ih =>
    rw [headGoP] at hx
    by_cases h : seen y.1.post.username < n
    · rw [if_pos h, List.mem_cons] at hx
      rcases hx with rfl | hx
      · exact List.mem_cons_self _ _
      · exact List.mem_cons_of_mem _ (ih hx)
    · rw [if_neg h] at hx
      exact List.mem_cons_of_mem _ (ih hx)

theorem avgGo_mem {full : List RPost} {seen : String → ℕ} {l : List RPost}
    {x : RPost × Option ℚ} (hx : x ∈ avgGo full seen l) :
    ∃ u j, x.2 = (avg_next_50 (groupLikes full u)).getD j none := by
  induction l generalizing seen with
  | nil => simp [avgGo] at hx
  | cons p t ih =>
    rw [avgGo, List.mem_cons] at hx
    rcases hx with rfl | hx
    · exact ⟨p.post.username, _, rfl⟩
    · exact ih hx

theorem groupLikes_nonneg {df : List RawPost} (h : ∀ p ∈ df, 0 ≤ ensure_numeric p.likes)
    (u : String) :
    ∀ a ∈ groupLikes (rankStep (sortStep (normalizeTable df))) u, 0 ≤ a := by
  intro a ha
  rw [groupLikes, List.mem_map] at ha
  obtain ⟨q, hq, rfl⟩ := ha
  have hq2 : q ∈ rankStep (sortStep (normalizeTable df)) := (List.mem_filter.mp hq).1
  have hpost := (rankGo_mem hq2).1
  have hmem : q.post ∈ normalizeTable df := (sortStep_perm _).mem_iff.mp hpost
  rw [normalizeTable, List.mem_map] at hmem
  obtain ⟨r, hr, heq⟩ := hmem
  rw [← heq]
  exact h r hr

theorem avg_value_nonneg {df : List RawPost} (h : ∀ p ∈ df, 0 ≤ ensure_numeric p.likes)
    {x : RPost × Option ℚ} (hx : x ∈ avgStep (rankStep (sortStep (normalizeTable df))))
    {a : ℚ} (ha : x.2 = some a) : 0 ≤ a := by
  obtain ⟨u, j, hval⟩ := avgGo_mem hx
  rw [hval] at ha
  set g := groupLikes (rankStep (sortStep (normalizeTable df))) u with hg
  rcases Nat.lt_or_ge j g.length with hj | hj
  · rw [avg_next_50_getD g j hj] at ha
    by_cases hc : j + 50 < g.length
    · rw [if_pos hc, Option.some_inj] at ha
      rw [← ha]
      refine div_nonneg (List.sum_nonneg fun v hv => ?_) (by norm_num)
      exact groupLikes_nonneg h u v
        (List.mem_of_mem_drop (List.mem_of_mem_take (by exact hv)))
    · rw [if_neg hc] at ha
      exact absurd ha (by simp)
  · rw [List.getD_eq_default _ _ (by rw [avg_next_50_length]; exact hj)] at ha
    exact absurd ha (by simp)

/-- C7 counterexample: with negative likes the threshold moves the wrong
way: on this 51-post account the run with multiplier 2 labels strictly
more posts viral than the run with multiplier 1. -/
def negTable : List RawPost :=
  (List.range 51).map fun d => mkPost "neg" (d + 1 : ℕ) (if d = 50 then -150 else -100)

/-- C7 counterexample: `1 ≤ 2` but the viral count increases when the
multiplier grows from 1 to 2, because the account's average is negative. -/
theorem c7_monotonicity_counterexample :
    (1 : ℚ) ≤ 2 ∧ viralCount 1 negTable < viralCount 2 negTable := by
  exact ⟨by norm_num, by decide⟩

/-- C7 (amended): when every (coerced) likes value of the input is
nonnegative, increasing the viral multiplier never increases the number of
posts labeled viral. -/
theorem c7_multiplier_monotone (df : List RawPost) (m₁ m₂ : ℚ) (hm : m₁ ≤ m₂)
    (h : ∀ p ∈ df, 0 ≤ ensure_numeric p.likes) :
    viralCount m₂ df ≤ viralCount m₁ df := by
  have base : ∀ m : ℚ, compute_engagement_with m df =
      (headGoP 50 (fun _ => 0)
        (avgStep (rankStep (sortStep (normalizeTable df))))).map (viralRow m) := by
    intro m
    rw [compute_engagement_with, labelStages, filterStep_eq,
      sortStep2_of_sorted (rankStep_sorted (sortStep_sorted _)), viralStep, headStep,
      headGo_map_viralRow]
  rw [viralCount, viralCount, base, base, ← List.countP_eq_length_filter,
    ← List.countP_eq_length_filter, List.countP_map, List.countP_map]
  refine List.countP_mono_left fun x hx h2 => ?_
  have hmem : x ∈ avgStep (rankStep (sortStep (normalizeTable df))) := headGoP_mem hx
  simp only [Function.comp] at h2 ⊢
  cases hx2 : x.2 with
  | none => simp [viralRow, hx2] at h2
  | some a =>
    have ha := avg_value_nonneg h hmem hx2
    simp only [viralRow, hx2, decide_eq_true_eq] at h2 ⊢
    by_cases hlt : a * m₂ < x.1.post.likes
    · have h1 : a * m₁ ≤ a * m₂ := mul_le_mul_of_nonneg_left hm ha
      have h2' : a * m₁ < x.1.post.likes := lt_of_le_of_lt h1 hlt
      simp [h2']
    · simp [hlt] at h2

/-- C7 witness: on the single-post table the amended monotonicity holds
concretely for multipliers 1 ≤ 2. -/
theorem c7_multiplier_monotone_witness :
    (1 : ℚ) ≤ 2 ∧ (∀ p ∈ scenarioC, 0 ≤ ensure_numeric p.likes) ∧
      viralCount 2 scenarioC ≤ viralCount 1 scenarioC := by
  exact ⟨by norm_num, by decide,
    c7_multiplier_monotone scenarioC 1 2 (by norm_num) (by decide)⟩

/-! ## The cross-dataset percentile calibrator (C8) -/

/-- Modelled from the spec: `get_top_engagement_from_both` is absent from
the repository sources — `src/data_pipeline/main.py` only imports and calls
it (`thresholds = get_top_engagement_from_both(ad_data_path=..,
cat_data_path=.., top_percent=0.2)`) — so the per-collection rule is
modelled from §4.6 of the spec: "sort descending, take the `ceil(p × n)`-th
value from the top as the threshold"; "an empty collection yields an
undefined/sentinel threshold rather than failing". -/
def topEngagementCutoff (p : ℚ) (data : List ℚ) : Option ℚ :=
  if data = [] then none
  else some ((data.insertionSort (· ≥ ·)).getD ((⌈p * data.length⌉).toNat - 1) 0)

/-- Modelled from the spec: the calibrator computes the two collections'
thresholds independently and returns the pair. -/
def get_top_engagement_from_both (p : ℚ) (ad cat : List ℚ) : Option ℚ × Option ℚ :=
  (topEngagementCutoff p ad, topEngagementCutoff p cat)

theorem cutoff_lower_bound (p : ℚ) (data : List ℚ) (hne : data ≠ [])
    (hp0 : 0 < p) (hp1 : p ≤ 1) :
    ∃ t, topEngagementCutoff p data = some t ∧
      (⌈p * data.length⌉).toNat ≤ data.countP fun v => decide (t ≤ v) := by
  have hn : 0 < data.length := List.length_pos.mpr hne
  have hm1 : 1 ≤ (⌈p * data.length⌉).toNat := by
    have hpos : (0 : ℤ) < ⌈p * data.length⌉ := Int.ceil_pos.mpr (by positivity)
    omega
  have hmn : (⌈p * data.length⌉).toNat ≤ data.length := by
    have h1 : ⌈p * data.length⌉ ≤ (data.length : ℤ) := by
      rw [Int.ceil_le]
      calc p * data.length ≤ 1 * data.length :=
            mul_le_mul_of_nonneg_right hp1 (by positivity)
        _ = ((data.length : ℤ) : ℚ) := by push_cast; ring
    omega
  set m := (⌈p * data.length⌉).toNat with hm
  set s := data.insertionSort (· ≥ ·) with hs
  have hslen : s.length = data.length := List.length_insertionSort _ _
  haveI : IsRefl ℚ (· ≥ ·) := ⟨fun a => le_refl a⟩
  have hsorted : s.Sorted (· ≥ ·) := List.sorted_insertionSort _ _
  have hperm : List.Perm s data := List.perm_insertionSort _ _
  have hmlt : m - 1 < s.length := by omega
  refine ⟨s.getD (m - 1) 0, ?_, ?_⟩
  · rw [topEngagementCutoff, if_neg hne]
  · rw [← hperm.countP_eq]
    have hts : s.getD (m - 1) 0 = s.get ⟨m - 1, hmlt⟩ := by
      rw [List.getD_eq_getElem?_getD, List.getElem?_eq_getElem hmlt]
      rfl
    have htake : ∀ v ∈ s.take m, s.getD (m - 1) 0 ≤ v := by
      intro v hv
      rw [List.mem_take_iff_getElem] at hv
      obtain ⟨i, hi, hvi⟩ := hv
      have hi2 : i < s.length := lt_of_lt_of_le hi (min_le_right _ _)
      have hile : i ≤ m - 1 := by
        have : i < m := lt_of_lt_of_le hi (min_le_left _ _)
        omega
      have hrel := hsorted.rel_get_of_le
        (a := ⟨i, hi2⟩) (b := ⟨m - 1, hmlt⟩) (by simpa using hile)
      rw [hts, ← hvi]
      simpa using hrel
    have hcount : (s.take m).countP (fun v => decide (s.getD (m - 1) 0 ≤ v)) =
        (s.take m).length := by
      rw [List.countP_eq_length]
      intro a ha
      simpa using htake a ha
    have hle := List.Sublist.countP_le (fun v => decide (s.getD (m - 1) 0 ≤ v))
      (List.take_sublist m s)
    rw [hcount] at hle
    have hlen : (s.take m).length = m := by
      rw [List.length_take]
      omega
    omega

/-- C8 counterexample: on the tied collection `[10, 10]` with `p = 1/2` the
threshold is the `ceil(1/2 × 2) = 1`-st largest value, `10`, but BOTH
items are `≥ 10` — so it is false that exactly `ceil(p × n)` items are
`≥` the returned threshold. -/
theorem c8_exactness_counterexample :
    topEngagementCutoff (1 / 2) [10, 10] = some 10 ∧
      (⌈(1 / 2 : ℚ) * (([10, 10] : List ℚ).length : ℚ)⌉).toNat = 1 ∧
      ([10, 10] : List ℚ).countP (fun v => decide ((10 : ℚ) ≤ v)) = 2 := by
  decide

/-- C8 (amended): for every pair of non-empty collections and top-fraction
`0 < p ≤ 1`, the calibrator returns one threshold per collection, each
computed independently as the `ceil(p × n)`-th largest value of that
collection, so that AT LEAST `ceil(p × n)` items of the collection are `≥`
the returned threshold (exactness fails under ties at the boundary). -/
theorem c8_percentile_pair (p : ℚ) (ad cat : List ℚ) (h₁ : ad ≠ []) (h₂ : cat ≠ [])
    (hp0 : 0 < p) (hp1 : p ≤ 1) :
    ∃ t₁ t₂, get_top_engagement_from_both p ad cat = (some t₁, some t₂) ∧
      (⌈p * ad.length⌉).toNat ≤ ad.countP (fun v => decide (t₁ ≤ v)) ∧
      (⌈p * cat.length⌉).toNat ≤ cat.countP (fun v => decide (t₂ ≤ v)) := by
  obtain ⟨t₁, he₁, hc₁⟩ := cutoff_lower_bound p ad h₁ hp0 hp1
  obtain ⟨t₂, he₂, hc₂⟩ := cutoff_lower_bound p cat h₂ hp0 hp1
  exact ⟨t₁, t₂, by rw [get_top_engagement_from_both, he₁, he₂], hc₁, hc₂⟩

/-- C8 witness: Scenario D — on `[10, 20, 30, 40, 50]` with `p = 0.2` the
returned threshold of each collection is 50, and at least
`ceil(0.2 × 5) = 1` item is `≥` it. -/
theorem c8_percentile_pair_witness :
    get_top_engagement_from_both (1 / 5) [10, 20, 30, 40, 50] [10, 20, 30, 40, 50] =
        (some 50, some 50) ∧
      ([10, 20, 30, 40, 50] : List ℚ) ≠ [] ∧ (0 : ℚ) < 1 / 5 ∧ (1 / 5 : ℚ) ≤ 1 ∧
      ∃ t₁ t₂,
        get_top_engagement_from_both (1 / 5) [10, 20, 30, 40, 50] [10, 20, 30, 40, 50] =
            (some t₁, some t₂) ∧
          (⌈(1 / 5 : ℚ) * (([10, 20, 30, 40, 50] : List ℚ).length : ℚ)⌉).toNat ≤
            ([10, 20, 30, 40, 50] : List ℚ).countP (fun v => decide (t₁ ≤ v)) ∧
          (⌈(1 / 5 : ℚ) * (([10, 20, 30, 40, 50] : List ℚ).length : ℚ)⌉).toNat ≤
            ([10, 20, 30, 40, 50] : List ℚ).countP (fun v => decide (t₂ ≤ v)) := by
  refine ⟨by decide, by decide, by decide, by decide, ?_⟩
  exact c8_percentile_pair (1 / 5) _ _ (by decide) (by decide) (by decide) (by decide)

/-! ## Per-account determinism (C9) -/

theorem orderedInsert_eq_cons {α : Type} (r : α → α → Prop) [DecidableRel r] (x : α)
    {s : List α} (h : ∀ y ∈ s, r x y) : s.orderedInsert r x = x :: s := by
  cases s with
  | nil => rfl
  | cons b t => rw [List.orderedInsert, if_pos (h b (List.mem_cons_self _ _))]

theorem filter_orderedInsert {α : Type} (r : α → α → Prop) [DecidableRel r] [IsTrans α r]
    (P : α → Bool) (x : α) (hP : P x = true) :
    ∀ {s : List α}, s.Sorted r →
      (s.orderedInsert r x).filter P = (s.filter P).orderedInsert r x := by
  intro s
  induction s with
  | nil =>
    intro _
    simp [List.orderedInsert, hP]
  | cons b t ih =>
    intro hs
    rw [List.orderedInsert]
    by_cases hr : r x b
    · rw [if_pos hr, List.filter_cons, if_pos hP, List.filter_cons]
      by_cases hPb : P b = true
      · rw [if_pos hPb, List.orderedInsert, if_pos hr]
      · rw [if_neg hPb]
        refine (orderedInsert_eq_cons r x fun y hy => ?_).symm
        have hyt : y ∈ t := (List.mem_filter.mp hy).1
        exact Trans.trans hr (List.rel_of_sorted_cons hs y hyt)
    · rw [if_neg hr, List.filter_cons, List.filter_cons]
      by_cases hPb : P b = true
      · rw [if_pos hPb, if_pos hPb, ih hs.of_cons, List.orderedInsert, if_neg hr]
      · rw [if_neg hPb, if_neg hPb, ih hs.of_cons]

theorem filter_insertionSort {α : Type} (r : α → α → Prop) [DecidableRel r] [IsTrans α r]
    [IsTotal α r] (P : α → Bool) (l : List α) :
    (l.insertionSort r).filter P = (l.filter P).insertionSort r := by
  induction l with
  | nil => rfl
  | cons x t ih =>
    rw [List.insertionSort, List.filter_cons]
    by_cases hP : P x = true
    · rw [if_pos hP, filter_orderedInsert r P x hP (List.sorted_insertionSort r t), ih,
        List.insertionSort]
    · rw [if_neg hP, ← ih, List.orderedInsert_eq_take_drop, List.filter_append,
        List.filter_cons, if_neg hP, ← List.filter_append, List.takeWhile_append_dropWhile]

/-- C9: the labeled rows of one account are a deterministic function of
that account's own input row subsequence: two runs whose inputs contain
the same rows of account `u`, in the same relative order — regardless of
the other accounts' rows and of how the rows are interleaved globally —
produce identical output rows for account `u`. -/
theorem c9_per_account_determinism (m : ℚ) (df₁ df₂ : List RawPost) (u : String)
    (h : df₁.filter (fun p => decide (p.username = u)) =
      df₂.filter (fun p => decide (p.username = u))) :
    accountRows u (compute_engagement_with m df₁) =
      accountRows u (compute_engagement_with m df₂) := by
  have key : ∀ df : List RawPost, (sortStep (normalizeTable df)).filter (userEqN u) =
      sortStep (normalizeTable (df.filter fun p => decide (p.username = u))) := by
    intro df
    rw [sortStep, filter_insertionSort, normalizeTable, List.filter_map]
    rfl
  rw [accountRows_compute_with, accountRows_compute_with, key, key, h]

/-- C9 witness: two tables agreeing on account "x" (but differing in the
other accounts and in global arrangement) give "x" identical output
rows. -/
theorem c9_per_account_determinism_witness :
    ([mkPost "x" 1 5, mkPost "zz" 9 7].filter
        (fun p => decide (p.username = "x")) =
      [mkPost "other" 4 1, mkPost "x" 1 5, mkPost "aa" 2 3].filter
        (fun p => decide (p.username = "x"))) ∧
      accountRows "x" (compute_engagement_with viralMultiplier
          [mkPost "x" 1 5, mkPost "zz" 9 7]) =
        accountRows "x" (compute_engagement_with viralMultiplier
          [mkPost "other" 4 1, mkPost "x" 1 5, mkPost "aa" 2 3]) := by
  exact ⟨by decide, c9_per_account_determinism viralMultiplier _ _ "x" (by decide)⟩

/-! ## Idempotence (C5) -/

/-- Re-running the pipeline on its own output: drop the derived columns
`post_number`, `avg_last_50`, `viral` and hand the remaining columns back
as a raw table (already-parsed dates stay as they are; numeric columns are
wrapped as present values, which the rerun's coercion maps back to
themselves). -/
def stripDerived (x : LPost) : RawPost :=
  ⟨x.ranked.post.username, x.ranked.post.date, some x.ranked.post.likes,
    some x.ranked.post.views, some x.ranked.post.comments, some x.ranked.post.duration⟩

theorem rankGo_map_post (seen : String → ℕ) (l : List NPost) :
    (rankGo seen l).map RPost.post = l := by
  induction l generalizing seen with
  | nil => rfl
  | cons p t ih => simp [rankGo, ih]

theorem avgGo_map_fst (full : List RPost) (seen : String → ℕ) (l : List RPost) :
    (avgGo full seen l).map Prod.fst = l := by
  induction l generalizing seen with
  | nil => rfl
  | cons p t ih => simp [avgGo, ih]

theorem groupLikes_rankStep (df : List RawPost) (u : String) :
    groupLikes (rankStep (sortStep (normalizeTable df))) u = accountSeries df u := by
  rw [groupLikes, rankStep, rankGo_filter, List.map_map]
  rw [show ((fun q : RPost => q.post.likes) ∘ fun x : ℕ × NPost => (⟨x.2, x.1 + 1⟩ : RPost)) =
    (NPost.likes ∘ Prod.snd) from rfl]
  rw [← List.map_map, withIdx_snd]
  rfl

theorem avgStep_all_none {df : List RawPost} (h : ∀ u, rawCount u df ≤ 50)
    {x : RPost × Option ℚ}
    (hx : x ∈ avgStep (rankStep (sortStep (normalizeTable df)))) : x.2 = none := by
  obtain ⟨u, j, hval⟩ := avgGo_mem hx
  have hlen : (groupLikes (rankStep (sortStep (normalizeTable df))) u).length ≤ 50 := by
    rw [groupLikes_rankStep, accountSeries_length]
    exact h u
  rcases Nat.lt_or_ge j (groupLikes (rankStep (sortStep (normalizeTable df))) u).length
    with hj | hj
  · rw [hval, avg_next_50_getD _ _ hj, if_neg (by omega)]
  · rw [hval, List.getD_eq_default _ _ (by rw [avg_next_50_length]; exact hj)]

theorem headGo_all {n : ℕ} {l : List LPost} :
    ∀ {seen : String → ℕ}, (∀ u, seen u + (l.filter (userEqL u)).length ≤ n) →
      headGo n seen l = l := by
  induction l with
  | nil => intro seen _; rfl
  | cons p t ih =>
    intro seen h
    have hself := h p.username
    rw [List.filter_cons, if_pos (by simp [userEqL]), List.length_cons] at hself
    rw [headGo, if_pos (by omega), ih]
    intro u
    by_cases hu : u = p.username
    · subst hu
      rw [bump_self]
      omega
    · rw [bump_other seen hu]
      have hthis := h u
      rw [List.filter_cons,
        if_neg (by simp only [userEqL, decide_eq_true_eq]; exact fun hc => hu hc.symm)] at hthis
      exact hthis

/-- C5 counterexample: re-running the pipeline on its own (stripped) output
changes the table for scenario A — the first run's truncation removed the
oldest post, so the rerun finds a 50-post account and erases the one
defined estimate. -/
theorem c5_not_idempotent_counterexample :
    compute_engagement ((compute_engagement scenarioA).map stripDerived) ≠
      compute_engagement scenarioA := by
  decide

/-- C5 (amended): on tables in which no account has more than 50 posts,
the pipeline is idempotent: stripping the derived columns from the output
and re-running produces the identical table.  (With more than 50 posts in
an account the step-9 truncation removes window posts, so the rerun loses
the defined estimates and the claim fails.) -/
theorem c5_idempotent_bounded (df : List RawPost)
    (h : ∀ p ∈ df, rawCount p.username df ≤ 50) :
    compute_engagement ((compute_engagement df).map stripDerived) =
      compute_engagement df := by
  have hu : ∀ u : String, rawCount u df ≤ 50 := by
    intro u
    rcases Nat.eq_zero_or_pos (rawCount u df) with h0 | h0
    · omega
    · rw [rawCount] at h0
      obtain ⟨p, hp⟩ := List.exists_mem_of_ne_nil _ (List.length_pos.mp h0)
      have hmem := (List.mem_filter.mp hp).1
      have hup : p.username = u := by simpa using (List.mem_filter.mp hp).2
      have := h p hmem
      rwa [hup] at this
  have hs3 : (sortStep (normalizeTable df)).Sorted rowR := sortStep_sorted _
  have hs4 : (rankStep (sortStep (normalizeTable df))).Sorted rankR := rankStep_sorted hs3
  have hlabels : labelStages viralMultiplier df =
      viralStep viralMultiplier (avgStep (rankStep (sortStep (normalizeTable df)))) := by
    rw [labelStages, filterStep_eq, sortStep2_of_sorted hs4]
  have hcount : ∀ u,
      ((labelStages viralMultiplier df).filter (userEqL u)).length = rawCount u df := by
    intro u
    have := accountRows_labelStages viralMultiplier df u
    rw [accountRows] at this
    rw [this, accountLabel, List.length_map, withIdx_length, filter_sortStep_length]
  have hkeep : headStep 50 (labelStages viralMultiplier df) =
      labelStages viralMultiplier df := by
    rw [headStep]
    refine headGo_all fun u => ?_
    rw [hcount u]
    simpa using hu u
  have hpipe : compute_engagement df = labelStages viralMultiplier df := by
    rw [compute_engagement, compute_engagement_with, hkeep]
  have hnorm : normalizeTable ((labelStages viralMultiplier df).map stripDerived) =
      sortStep (normalizeTable df) := by
    rw [normalizeTable, List.map_map]
    rw [show (normalizeRow ∘ stripDerived) = fun x : LPost => x.ranked.post from
      funext fun x => rfl]
    rw [hlabels, viralStep, List.map_map]
    rw [show ((fun x : LPost => x.ranked.post) ∘ viralRow viralMultiplier) =
      (RPost.post ∘ Prod.fst) from rfl]
    rw [← List.map_map, avgStep, avgGo_map_fst, rankStep, rankGo_map_post]
  have hrerun : labelStages viralMultiplier ((labelStages viralMultiplier df).map stripDerived) =
      labelStages viralMultiplier df := by
    show viralStep viralMultiplier (avgStep (sortStep2 (filterStep (rankStep (sortStep
      (normalizeTable ((labelStages viralMultiplier df).map stripDerived))))))) =
      labelStages viralMultiplier df
    rw [hnorm,
      show sortStep (sortStep (normalizeTable df)) = sortStep (normalizeTable df) from
        hs3.insertionSort_eq,
      filterStep_eq, sortStep2_of_sorted hs4, ← hlabels]
  rw [hpipe, compute_engagement, compute_engagement_with, hrerun]
  exact hkeep

/-- A two-post account used to witness the amended idempotence. -/
def wTable : List RawPost := [mkPost "w" 1 3, mkPost "w" 2 8]

/-- C5 witness: on a table whose single account has 2 ≤ 50 posts, the
rerun on the stripped output reproduces the output exactly. -/
theorem c5_idempotent_bounded_witness :
    (∀ p ∈ wTable, rawCount p.username wTable ≤ 50) ∧
      compute_engagement ((compute_engagement wTable).map stripDerived) =
        compute_engagement wTable :=
  ⟨by decide, c5_idempotent_bounded wTable (by decide)⟩
